import Mathlib

/-!
Verification of the value-tree → HTML-form encoder and the HTTP handlers of
the Ren'Py save editor (src/main.go), against its natural-language spec.

The Go program decodes a pickled object graph into dynamic values
(`map[interface{}]interface{}`, `[]interface{}`, `string`, signed ints,
floats, `bool`, `nil`, and anything else), and `renderEditableForm`
recursively turns such a value into HTML form markup, addressing each leaf
by a field path built with `.<key>` for map descent and `[<index>]` for
slice descent.  We embed the dynamic value universe as the closed sum
`Value` below and translate each handler into a pure function over an
explicit request model.
-/

/-! ## Decimal rendering (the `%d` / `%v` formatting of integers) -/
/-- Fuel-driven most-significant-first decimal digit list of a natural
number; `fuel` bounds the recursion depth.  Mirrors the decimal rendering
`fmt.Sprintf` performs for `%d`-style verbs. -/
def decDigitsAux : Nat → Nat → List Char
  | 0, _ => []
  | fuel + 1, n =>
    if n < 10 then [Nat.digitChar n]
    else decDigitsAux fuel (n / 10) ++ [Nat.digitChar (n % 10)]

/-- Decimal digit characters of `n`, most significant first. -/
def natDigits (n : Nat) : List Char := decDigitsAux (n + 1) n

/-- Decimal string of a natural number, as Go's `fmt` renders it. -/
def natRepr (n : Nat) : String := ⟨natDigits n⟩

/-- Decimal string of an integer, as Go's `fmt` renders signed ints. -/
def intRepr (i : Int) : String :=
  if i < 0 then "-" ++ natRepr i.natAbs else natRepr i.natAbs

/-! ## `html.EscapeString` -/
/-- The double-quote character, kept as a named constant. -/
def quoteChar : Char := Char.ofNat 34

/-- The single-quote character, kept as a named constant. -/
def aposChar : Char := Char.ofNat 39

/-- Replacement performed by Go's `html.EscapeString` on one character:
`&`, `'`, `<`, `>`, `"` become entities, all other characters pass
through. -/
def escapeChar (c : Char) : List Char :=
  if c = '&' then "&amp;".data
  else if c = aposChar then "&#39;".data
  else if c = '<' then "&lt;".data
  else if c = '>' then "&gt;".data
  else if c = quoteChar then "&#34;".data
  else [c]

/-- Go's `html.EscapeString`. -/
def escapeString (s : String) : String := ⟨(s.data.map escapeChar).flatten⟩

/-! ## The dynamic value universe

`renderEditableForm` dispatches on the runtime type of its argument with a
Go type switch.  We embed the shapes the switch distinguishes, keeping the
Go types that share a case as a tag so that the claims about the case
structure (for instance, that unsigned integers are not matched) are
statable. -/
/-- The signed integer types matched by `case int, int64, int32, int16, int8`. -/
inductive SignedTy where
  | i | i64 | i32 | i16 | i8
deriving DecidableEq

/-- The unsigned Go integer types; none of them appears in the type switch. -/
inductive UnsignedTy where
  | u | u64 | u32 | u16 | u8
deriving DecidableEq

/-- The float types matched by `case float64, float32`. -/
inductive FloatTy where
  | f64 | f32
deriving DecidableEq

/-- Dynamic values as `renderEditableForm` observes them.

* `mapping kvs` — `map[interface{}]interface{}`; each Go key is rendered to
  a string by `fmt.Sprintf` with the `%v` verb before any use, so an entry
  carries that rendered key string.  Go map iteration order is not part of
  the value; the list order stands for one iteration order.
* `sequence vs` — `[]interface{}`.
* `text s` — `string`.
* `integer ty v` — a signed integer together with its static Go type.
* `float ty r` — a floating value; the encoder only ever consumes the
  `%v` rendering of it, so the embedding carries that rendering `r`.
* `boolean b` — `bool`.
* `null` — `nil`.
* `uinteger ty n` — an unsigned integer with its static Go type.
* `opaq r` — any other runtime value, carrying its `%v` display string. -/
inductive Value where
  | mapping : List (String × Value) → Value
  | sequence : List Value → Value
  | text : String → Value
  | integer : SignedTy → Int → Value
  | float : FloatTy → String → Value
  | boolean : Bool → Value
  | null : Value
  | uinteger : UnsignedTy → Nat → Value
  | opaq : String → Value

/-! ## The encoder (src/main.go lines 16–52) -/
mutual

/-- `renderEditableForm` from src/main.go.  The switch cases appear in
source order; `uinteger` and `opaq` both land in the `default:` case,
which renders `<code>%s</code>` around the escaped `%v` display. -/
def renderEditableForm : Value → String → String
  | .mapping kvs, pre => "<ul>" ++ renderMapItems kvs pre ++ "</ul>"
  | .sequence vs, pre => "<ol>" ++ renderSeqItems vs pre 0 ++ "</ol>"
  | .text v, pre =>
      "<input type=\"text\" name=\"" ++ escapeString pre ++ "\" value=\""
        ++ escapeString v ++ "\" size=\"100\">"
  | .integer _ v, pre =>
      "<input type=\"number\" name=\"" ++ escapeString pre ++ "\" value=\""
        ++ intRepr v ++ "\">"
  | .float _ r, pre =>
      "<input type=\"number\" step=\"any\" name=\"" ++ escapeString pre
        ++ "\" value=\"" ++ r ++ "\">"
  | .boolean b, pre =>
      "<input type=\"hidden\" name=\"" ++ escapeString pre
        ++ "\" value=\"false\"><input type=\"checkbox\" name=\""
        ++ escapeString pre ++ "\" value=\"true\" "
        ++ (if b then "checked" else "") ++ ">"
  | .null, _ => "<em>nil</em>"
  | .uinteger _ n, _pre => "<code>" ++ escapeString (natRepr n) ++ "</code>"
  | .opaq r, _pre => "<code>" ++ escapeString r ++ "</code>"

/-- The `for key, value := range v` loop of the mapping case: emits
`<li><label>key:</label> child</li>` per entry, descending with the
dot-extended path `pre ++ "." ++ key` (src/main.go lines 21–25). -/
def renderMapItems : List (String × Value) → String → String
  | [], _ => ""
  | (k, v) :: rest, pre =>
      "<li><label>" ++ escapeString k ++ ":</label> "
        ++ renderEditableForm v (pre ++ "." ++ k) ++ "</li>"
        ++ renderMapItems rest pre

/-- The `for i, value := range v` loop of the sequence case: emits
`<li>child</li>` per element, descending with the bracket-extended path
`pre ++ "[" ++ i ++ "]"` (src/main.go lines 29–32). -/
def renderSeqItems : List Value → String → Nat → String
  | [], _, _ => ""
  | v :: rest, pre, i =>
      "<li>" ++ renderEditableForm v (pre ++ "[" ++ natRepr i ++ "]") ++ "</li>"
        ++ renderSeqItems rest pre (i + 1)

end

/-! ## Field paths

The encoder extends its path argument with `"." ++ key` when descending
into a mapping entry (src/main.go line 23) and with `"[" ++ i ++ "]"` when
descending to a sequence element (line 30).  A leaf position is the list
of descent steps leading to it. -/
/-- One descent step in a value tree: into a mapping entry under its
rendered key, or into a sequence element at an index. -/
inductive Step where
  | key : String → Step
  | idx : Nat → Step
deriving DecidableEq

/-- The path suffix one step contributes. -/
def stepStr : Step → String
  | .key k => "." ++ k
  | .idx i => "[" ++ natRepr i ++ "]"

/-- The field path of the position reached from root path `pre` by the
steps `p`, exactly as the encoder extends its path argument. -/
def pathOf (pre : String) (p : List Step) : String :=
  p.foldl (fun acc s => acc ++ stepStr s) pre

mutual

/-- Positions (step lists) of all leaves — every node that is not a
mapping or a sequence — of a value, in traversal order. -/
def leafPositions : Value → List (List Step)
  | .mapping kvs => leafPositionsMap kvs
  | .sequence vs => leafPositionsSeq vs 0
  | .text _ => [[]]
  | .integer _ _ => [[]]
  | .float _ _ => [[]]
  | .boolean _ => [[]]
  | .null => [[]]
  | .uinteger _ _ => [[]]
  | .opaq _ => [[]]

/-- Leaf positions contributed by the entries of a mapping node. -/
def leafPositionsMap : List (String × Value) → List (List Step)
  | [] => []
  | (k, v) :: rest =>
      (leafPositions v).map (Step.key k :: ·) ++ leafPositionsMap rest

/-- Leaf positions contributed by the elements of a sequence node,
starting at index `i`. -/
def leafPositionsSeq : List Value → Nat → List (List Step)
  | [], _ => []
  | v :: rest, i =>
      (leafPositions v).map (Step.idx i :: ·) ++ leafPositionsSeq rest (i + 1)

end

/-- A key string that cannot collide across path levels: it contains
neither the dot separator nor the opening index bracket. -/
def goodKey (k : String) : Bool := k.data.all fun c => !(c == '.' || c == '[')

mutual

/-- All mapping keys anywhere in the value are collision-free in the sense
of `goodKey`. -/
def safeKeys : Value → Bool
  | .mapping kvs => safeKeysMap kvs
  | .sequence vs => safeKeysSeq vs
  | _ => true

/-- `safeKeys` over the entries of a mapping node. -/
def safeKeysMap : List (String × Value) → Bool
  | [] => true
  | (k, v) :: rest => goodKey k && safeKeys v && safeKeysMap rest

/-- `safeKeys` over the elements of a sequence node. -/
def safeKeysSeq : List Value → Bool
  | [] => true
  | v :: rest => safeKeys v && safeKeysSeq rest

end

/-! ## Decimal digits: injectivity and character shape -/
/-- Numeric value of a digit character. -/
def digitVal (c : Char) : Nat := c.toNat - 48

/-- Numeric value of a most-significant-first digit character list. -/
def digitsVal (l : List Char) : Nat := l.foldl (fun a c => 10 * a + digitVal c) 0

/-- Character-list form of the path suffix of one step. -/
def stepChars : Step → List Char
  | .key k => '.' :: k.data
  | .idx i => '[' :: (natDigits i ++ [']'])

/-- Character-list form of the path suffix of a step list. -/
def stepsChars (p : List Step) : List Char := (p.map stepChars).flatten

/-- A step whose rendered key cannot collide across path levels. -/
def goodStep : Step → Prop
  | .key k => goodKey k = true
  | .idx _ => True

/-! ## Escaping (C3): no `<script>` can appear in the output

The invariant: the output never contains `<` immediately followed by `s`,
and never ends in `<`.  Both properties compose over concatenation, every
fixed template piece enjoys them, and every escaped or numeric fragment
contains no `<` at all. -/
/-- `true` when the two-character sequence `x y` does not occur in `l`. -/
def noPair (x y : Char) : List Char → Bool
  | [] => true
  | [_] => true
  | c1 :: c2 :: rest => !(c1 == x && c2 == y) && noPair x y (c2 :: rest)

/-- Lists safe under concatenation: no occurrence of the pair `x y`, and
not ending in `x` (so no occurrence can form at a concatenation point). -/
abbrev GoodFor (x y : Char) (l : List Char) : Prop :=
  noPair x y l = true ∧ l.getLast? ≠ some x

mutual

/-- Every float leaf's `%v` rendering is free of `<`.  This records, per
tree, the fact that Go's `%v` output for `float64`/`float32` consists of
digits, signs, a dot and exponent letters only — the one fragment the
encoder pastes into its output without escaping. -/
def floatSafe : Value → Bool
  | .mapping kvs => floatSafeMap kvs
  | .sequence vs => floatSafeSeq vs
  | .float _ r => r.data.all (fun c => !(c == '<'))
  | _ => true

/-- `floatSafe` over the entries of a mapping node. -/
def floatSafeMap : List (String × Value) → Bool
  | [] => true
  | (_, v) :: rest => floatSafe v && floatSafeMap rest

/-- `floatSafe` over the elements of a sequence node. -/
def floatSafeSeq : List Value → Bool
  | [] => true
  | v :: rest => floatSafe v && floatSafeSeq rest

end

/-! ## Boolean leaf rendering (C4) -/
/-- Markup for a Boolean leaf as the spec's table row describes it: a
hidden companion field with value `false`, then a checkbox field with
value `true`, both carrying the same field name, the checkbox carrying the
`checked` attribute exactly when the value is true. -/
def specBooleanControl (nm : String) (checked : Bool) : String :=
  ("<input type=\"hidden\" name=\"" ++ nm ++ "\" value=\"false\">")
    ++ ("<input type=\"checkbox\" name=\"" ++ nm ++ "\" value=\"true\" "
      ++ (if checked then "checked" else "") ++ ">")

/-! ## Sequence traversal order (C5) -/
/-- Index-tagging of a list from a starting index. -/
def enumF : Nat → List Value → List (Nat × Value)
  | _, [] => []
  | i, v :: rest => (i, v) :: enumF (i + 1) rest

/-- Concatenation of a list of markup fragments in order. -/
def strConcat : List String → String
  | [] => ""
  | s :: rest => s ++ strConcat rest

/-! ## The HTTP layer (src/main.go lines 54–180)

Each handler is embedded as a pure function over an explicit request
model.  Fallible external collaborators — multipart retrieval, zip
parsing, unpickling — are modelled by `Option`-valued oracles: `none`
stands for the error return the Go code checks. -/
/-- An incoming HTTP request, as far as the handlers consult it. -/
structure Request where
  /-- `r.Method`. -/
  method : String
  /-- `r.URL.Path`, assumed in canonical (cleaned) form. -/
  path : String
  /-- Outcome of `r.FormFile("savefile")`: `none` models the error return;
  otherwise the opened file, whose `io.ReadAll` outcome is in turn `none`
  on a read error or `some` bytes. -/
  savefile : Option (Option (List Nat))
  /-- Outcome of `r.ParseForm()` followed by reading `r.PostForm`: `none`
  models a parse error; otherwise the fields, one entry per distinct key. -/
  postForm : Option (List (String × List String))

/-- Status and body of a response. -/
structure HttpResponse where
  status : Nat
  body : String
deriving DecidableEq

/-- One entry of the uploaded zip archive; `content` is `none` when
`Open`/read of the entry fails. -/
structure ZipEntry where
  name : String
  content : Option (List Nat)

/-- Response of the upload handler plus whether it consulted the uploaded
file (`r.FormFile` and the reads that follow it). -/
structure UploadResult where
  resp : HttpResponse
  fileRead : Bool
deriving DecidableEq

/-- The page built around the rendered form on a successful upload
(src/main.go lines 107–122). -/
def editPage (formBody : String) : String :=
  "\n\t\t<!DOCTYPE html>\n\t\t<html>\n\t\t<head>\n\t\t\t<title>Ren'Py Save Editor</title>\n\t\t</head>\n\t\t<body>\n\t\t\t<h2>Edit Save File Data</h2>\n\t\t\t<form action=\"/save\" method=\"post\">\n\t\t\t\t"
    ++ formBody
    ++ "\n\t\t\t\t<br>\n\t\t\t\t<input type=\"submit\" value=\"Save Changes\">\n\t\t\t</form>\n\t\t</body>\n\t\t</html>\n\t"

/-- `uploadHandler` (src/main.go lines 54–123).  `zipParse` models
`zip.NewReader` on the uploaded bytes, `unpickle` models
`pickle.NewUnpickler(...).Load()`.  Error bodies carry the trailing
newline `http.Error` appends. -/
def uploadHandler (zipParse : List Nat → Option (List ZipEntry))
    (unpickle : List Nat → Option Value) (r : Request) : UploadResult :=
  if r.method ≠ "POST" then
    ⟨⟨405, "Only POST method is allowed\n"⟩, false⟩
  else
    match r.savefile with
    | none => ⟨⟨400, "Error retrieving the file\n"⟩, true⟩
    | some none => ⟨⟨500, "Error reading uploaded file\n"⟩, true⟩
    | some (some bytes) =>
      match zipParse bytes with
      | none => ⟨⟨500, "Error reading zip file\n"⟩, true⟩
      | some entries =>
        match entries.find? (fun f => f.name == "log") with
        | none => ⟨⟨400, "log file not found in save archive\n"⟩, true⟩
        | some logFile =>
          match logFile.content with
          | none => ⟨⟨500, "Error opening log file\n"⟩, true⟩
          | some content =>
            match unpickle content with
            | none => ⟨⟨500, "Error unpickling log file\n"⟩, true⟩
            | some data => ⟨⟨200, editPage (renderEditableForm data "root")⟩, true⟩

/-- Response of the save handler plus the form entries it printed to the
server log, in print order. -/
structure SaveResult where
  status : Nat
  body : String
  logged : List (String × List String)

/-- The `r.PostForm[key]` lookup. -/
def lookupForm (form : List (String × List String)) (k : String) : List String :=
  match form.find? (fun kv => kv.1 == k) with
  | some kv => kv.2
  | none => []

/-- `saveHandler` (src/main.go lines 125–152): method check, form parse,
then print the fields with their keys sorted by `sort.Strings`
(lexicographic byte order, which agrees with `String` order here), then a
plain-text acknowledgment. -/
def saveHandler (r : Request) : SaveResult :=
  if r.method ≠ "POST" then ⟨405, "Only POST method is allowed\n", []⟩
  else
    match r.postForm with
    | none => ⟨500, "Error parsing form\n", []⟩
    | some form =>
      let keys := List.insertionSort (· ≤ ·) (form.map Prod.fst)
      ⟨200, "Changes received. Rebuilding the save file is the next step.",
        keys.map fun k => (k, lookupForm form k)⟩

/-- The landing page with the upload form (src/main.go lines 159–173). -/
def rootPage : String :=
  "\n\t\t\t<!DOCTYPE html>\n\t\t\t<html>\n\t\t\t<head>\n\t\t\t\t<title>Ren'Py Save Editor</title>\n\t\t\t</head>\n\t\t\t<body>\n\t\t\t\t<h2>Upload Save File</h2>\n\t\t\t\t<form action=\"/upload\" method=\"post\" enctype=\"multipart/form-data\">\n\t\t\t\t\t<input type=\"file\" name=\"savefile\">\n\t\t\t\t\t<input type=\"submit\" value=\"Upload\">\n\t\t\t\t</form>\n\t\t\t</body>\n\t\t\t</html>\n\t\t"

/-- The routing of `main` (src/main.go lines 154–174): `http.ServeMux`
with the patterns `/upload`, `/save` and `/`.  Neither registered pattern
ends in a slash, so each matches only its exact path, and the pattern `/`
catches every other (canonical) path. -/
def serve (zipParse : List Nat → Option (List ZipEntry))
    (unpickle : List Nat → Option Value) (r : Request) : HttpResponse :=
  if r.path = "/upload" then (uploadHandler zipParse unpickle r).resp
  else if r.path = "/save" then
    let s := saveHandler r
    ⟨s.status, s.body⟩
  else ⟨200, rootPage⟩

theorem digitVal_digitChar : ∀ d < 10, digitVal (Nat.digitChar d) = d := by decide

theorem digitChar_isDigit : ∀ d < 10, (Nat.digitChar d).isDigit = true := by decide

theorem digitsVal_append_singleton (l : List Char) (c : Char) :
    digitsVal (l ++ [c]) = 10 * digitsVal l + digitVal c := by
  simp [digitsVal, List.foldl_append]

theorem digitsVal_decDigitsAux :
    ∀ fuel n, n < 10 ^ fuel → digitsVal (decDigitsAux fuel n) = n := by
  intro fuel
  induction fuel with
  | zero =>
      intro n h
      simp only [pow_zero, Nat.lt_one_iff] at h
      subst h
      rfl
  | succ f ih =>
      intro n h
      by_cases h10 : n < 10
      · have := digitVal_digitChar n h10
        simp [decDigitsAux, h10, digitsVal, this]
      · have hdiv : n / 10 < 10 ^ f := by
          have hlt : n < 10 ^ f * 10 := by
            have := pow_succ 10 f
            omega
          exact (Nat.div_lt_iff_lt_mul (by norm_num)).mpr hlt
        have hmod := digitVal_digitChar (n % 10) (Nat.mod_lt _ (by norm_num))
        simp [decDigitsAux, h10, digitsVal_append_singleton, ih (n / 10) hdiv, hmod]
        omega

theorem digitsVal_natDigits (n : Nat) : digitsVal (natDigits n) = n := by
  have hlt : n < 10 ^ (n + 1) := by
    calc n < 10 ^ n := Nat.lt_pow_self (by norm_num) n
    _ ≤ 10 ^ (n + 1) := Nat.pow_le_pow_right (by norm_num) (Nat.le_succ n)
  exact digitsVal_decDigitsAux (n + 1) n hlt

theorem natDigits_inj {m n : Nat} (h : natDigits m = natDigits n) : m = n := by
  have hm := digitsVal_natDigits m
  rw [h, digitsVal_natDigits] at hm
  exact hm.symm

theorem mem_decDigitsAux_isDigit :
    ∀ fuel n c, c ∈ decDigitsAux fuel n → c.isDigit = true := by
  intro fuel
  induction fuel with
  | zero => intro n c hc; simp [decDigitsAux] at hc
  | succ f ih =>
      intro n c hc
      by_cases h10 : n < 10
      · simp [decDigitsAux, h10] at hc
        subst hc
        exact digitChar_isDigit n h10
      · simp [decDigitsAux, h10] at hc
        rcases hc with hc | hc
        · exact ih _ c hc
        · subst hc
          exact digitChar_isDigit (n % 10) (Nat.mod_lt _ (by norm_num))

theorem mem_natDigits_isDigit (n : Nat) (c : Char) (hc : c ∈ natDigits n) :
    c.isDigit = true :=
  mem_decDigitsAux_isDigit (n + 1) n c hc

theorem isDigit_ne (c : Char) (hd : c.isDigit = true) :
    c ≠ '.' ∧ c ≠ '[' ∧ c ≠ ']' ∧ c ≠ '<' := by
  refine ⟨?_, ?_, ?_, ?_⟩ <;> rintro rfl <;> simp [Char.isDigit] at hd

/-! ## Path injectivity machinery -/
theorem strData_append (s t : String) : (s ++ t).data = s.data ++ t.data := by
  cases s; cases t; rfl

theorem stepStr_data (s : Step) : (stepStr s).data = stepChars s := by
  cases s with
  | key k =>
      show (("." : String) ++ k).data = _
      rw [strData_append]
      rfl
  | idx i =>
      show (("[" : String) ++ natRepr i ++ "]").data = _
      rw [strData_append, strData_append]
      simp [stepChars, natRepr, natDigits]

theorem pathOf_data (pre : String) (p : List Step) :
    (pathOf pre p).data = pre.data ++ stepsChars p := by
  induction p generalizing pre with
  | nil => simp [pathOf, stepsChars]
  | cons s p ih =>
      have hstep : pathOf pre (s :: p) = pathOf (pre ++ stepStr s) p := by
        simp [pathOf]
      rw [hstep, ih, strData_append, stepStr_data]
      simp [stepsChars]

/-- Splitting a concatenation at the boundary between a block of characters
satisfying `P` and a remainder that does not start with such a character. -/
theorem chunk_split (P : Char → Bool) :
    ∀ a1 a2 r1 r2 : List Char, (∀ c ∈ a1, P c = true) → (∀ c ∈ a2, P c = true) →
      (∀ c, r1.head? = some c → P c = false) →
      (∀ c, r2.head? = some c → P c = false) →
      a1 ++ r1 = a2 ++ r2 → a1 = a2 ∧ r1 = r2 := by
  intro a1
  induction a1 with
  | nil =>
      intro a2 r1 r2 _ h2 g1 _ heq
      cases a2 with
      | nil => simpa using heq
      | cons d a2' =>
          exfalso
          simp only [List.nil_append, List.cons_append] at heq
          have hd := h2 d (List.mem_cons_self d a2')
          have hd' := g1 d (by rw [heq]; rfl)
          rw [hd] at hd'
          exact Bool.noConfusion hd'
  | cons c a1' ih =>
      intro a2 r1 r2 h1 h2 g1 g2 heq
      cases a2 with
      | nil =>
          exfalso
          simp only [List.cons_append, List.nil_append] at heq
          have hc := h1 c (List.mem_cons_self c a1')
          have hc' := g2 c (by rw [← heq]; rfl)
          rw [hc] at hc'
          exact Bool.noConfusion hc'
      | cons d a2' =>
          simp only [List.cons_append, List.cons.injEq] at heq
          obtain ⟨rfl, heq⟩ := heq
          have hrec := ih a2' r1 r2 (fun x hx => h1 x (List.mem_cons_of_mem _ hx))
            (fun x hx => h2 x (List.mem_cons_of_mem _ hx)) g1 g2 heq
          exact ⟨by rw [hrec.1], hrec.2⟩

/-- The rendering of a step list is empty or starts with `.` or `[`. -/
theorem stepsChars_head (p : List Step) (c : Char)
    (hc : (stepsChars p).head? = some c) : c = '.' ∨ c = '[' := by
  cases p with
  | nil => simp [stepsChars] at hc
  | cons s p =>
      cases s with
      | key k =>
          simp [stepsChars, stepChars] at hc
          exact Or.inl hc.symm
      | idx i =>
          simp [stepsChars, stepChars] at hc
          exact Or.inr hc.symm

theorem stepsChars_inj :
    ∀ p1 p2 : List Step, (∀ s ∈ p1, goodStep s) → (∀ s ∈ p2, goodStep s) →
      stepsChars p1 = stepsChars p2 → p1 = p2 := by
  intro p1
  induction p1 with
  | nil =>
      intro p2 _ _ heq
      cases p2 with
      | nil => rfl
      | cons s2 t2 =>
          exfalso
          cases s2 <;> simp [stepsChars, stepChars] at heq
  | cons s1 t1 ih =>
      intro p2 h1 h2 heq
      cases p2 with
      | nil =>
          exfalso
          cases s1 <;> simp [stepsChars, stepChars] at heq
      | cons s2 t2 =>
          have hs1 := h1 s1 (List.mem_cons_self s1 t1)
          have hs2 := h2 s2 (List.mem_cons_self s2 t2)
          have ht1 : ∀ s ∈ t1, goodStep s := fun s hs => h1 s (List.mem_cons_of_mem _ hs)
          have ht2 : ∀ s ∈ t2, goodStep s := fun s hs => h2 s (List.mem_cons_of_mem _ hs)
          cases s1 with
          | key k1 =>
              cases s2 with
              | key k2 =>
                  simp only [stepsChars, List.map_cons, List.flatten_cons, stepChars,
                    List.cons_append, List.cons.injEq] at heq
                  have hsplit := chunk_split (fun c => !(c == '.' || c == '['))
                    k1.data k2.data (stepsChars t1) (stepsChars t2)
                    (by
                      intro c hc
                      exact List.all_eq_true.mp hs1 c hc)
                    (by
                      intro c hc
                      exact List.all_eq_true.mp hs2 c hc)
                    (by
                      intro c hc
                      rcases stepsChars_head t1 c hc with rfl | rfl <;> rfl)
                    (by
                      intro c hc
                      rcases stepsChars_head t2 c hc with rfl | rfl <;> rfl)
                    (by simpa [stepsChars] using heq.2)
                  have hk : k1 = k2 := by
                    cases k1; cases k2
                    exact congrArg String.mk (by simpa using hsplit.1)
                  rw [hk, ih t2 ht1 ht2 hsplit.2]
              | idx i2 =>
                  exfalso
                  simp [stepsChars, stepChars] at heq
          | idx i1 =>
              cases s2 with
              | key k2 =>
                  exfalso
                  simp [stepsChars, stepChars] at heq
              | idx i2 =>
                  simp only [stepsChars, List.map_cons, List.flatten_cons, stepChars,
                    List.cons_append, List.cons.injEq] at heq
                  have heq2 : natDigits i1 ++ (']' :: stepsChars t1)
                      = natDigits i2 ++ (']' :: stepsChars t2) := by
                    have := heq.2
                    simpa [stepsChars, List.append_assoc] using this
                  have hsplit := chunk_split Char.isDigit
                    (natDigits i1) (natDigits i2)
                    (']' :: stepsChars t1) (']' :: stepsChars t2)
                    (fun c hc => mem_natDigits_isDigit i1 c hc)
                    (fun c hc => mem_natDigits_isDigit i2 c hc)
                    (by intro c hc; simp at hc; subst hc; rfl)
                    (by intro c hc; simp at hc; subst hc; rfl)
                    heq2
                  have hi : i1 = i2 := natDigits_inj hsplit.1
                  have ht : stepsChars t1 = stepsChars t2 := by
                    have := hsplit.2
                    simpa using this
                  rw [hi, ih t2 ht1 ht2 ht]

/-- Positions listed for a leaf node are the single empty position, whose
steps are vacuously good. -/
theorem lpGoodLeaf (p : List Step) (hp : p ∈ [([] : List Step)]) :
    ∀ s ∈ p, goodStep s := by
  simp at hp
  subst hp
  intro s hs
  simp at hs

mutual

/-- Under `safeKeys`, every step of every leaf position is good. -/
theorem lpGood : ∀ v : Value, safeKeys v = true →
    ∀ p ∈ leafPositions v, ∀ s ∈ p, goodStep s
  | .mapping kvs, hv, p, hp => lpGoodMap kvs hv p hp
  | .sequence vs, hv, p, hp => lpGoodSeq vs 0 hv p hp
  | .text _, _, p, hp => lpGoodLeaf p hp
  | .integer _ _, _, p, hp => lpGoodLeaf p hp
  | .float _ _, _, p, hp => lpGoodLeaf p hp
  | .boolean _, _, p, hp => lpGoodLeaf p hp
  | .null, _, p, hp => lpGoodLeaf p hp
  | .uinteger _ _, _, p, hp => lpGoodLeaf p hp
  | .opaq _, _, p, hp => lpGoodLeaf p hp

/-- `lpGood` over the entries of a mapping node. -/
theorem lpGoodMap : ∀ kvs : List (String × Value), safeKeysMap kvs = true →
    ∀ p ∈ leafPositionsMap kvs, ∀ s ∈ p, goodStep s
  | [], _, p, hp => by simp [leafPositionsMap] at hp
  | (k, v) :: rest, hv, p, hp => by
      have hv' : goodKey k = true ∧ safeKeys v = true ∧ safeKeysMap rest = true := by
        simpa [safeKeysMap, Bool.and_eq_true, and_assoc] using hv
      simp only [leafPositionsMap, List.mem_append, List.mem_map] at hp
      rcases hp with ⟨q, hq, rfl⟩ | hp
      · intro s hs
        rcases List.mem_cons.mp hs with rfl | hs
        · exact hv'.1
        · exact lpGood v hv'.2.1 q hq s hs
      · exact lpGoodMap rest hv'.2.2 p hp

/-- `lpGood` over the elements of a sequence node. -/
theorem lpGoodSeq : ∀ (vs : List Value) (i : Nat), safeKeysSeq vs = true →
    ∀ p ∈ leafPositionsSeq vs i, ∀ s ∈ p, goodStep s
  | [], _, _, p, hp => by simp [leafPositionsSeq] at hp
  | v :: rest, i, hv, p, hp => by
      have hv' : safeKeys v = true ∧ safeKeysSeq rest = true := by
        simpa [safeKeysSeq, Bool.and_eq_true] using hv
      simp only [leafPositionsSeq, List.mem_append, List.mem_map] at hp
      rcases hp with ⟨q, hq, rfl⟩ | hp
      · intro s hs
        rcases List.mem_cons.mp hs with rfl | hs
        · trivial
        · exact lpGood v hv'.1 q hq s hs
      · exact lpGoodSeq rest (i + 1) hv'.2 p hp

end

/-- C1 (amended): over a tree all of whose rendered mapping keys avoid the
characters `.` and `[`, the encoder's field-path assignment is injective on
leaf positions — any two distinct Scalar/Opaque leaf positions are assigned
distinct field paths under any common root path, and in particular distinct
keys of one mapping node yield distinct child paths. -/
theorem encoder_path_injective (t : Value) (pre : String) (hsafe : safeKeys t = true)
    (p1 p2 : List Step) (h1 : p1 ∈ leafPositions t) (h2 : p2 ∈ leafPositions t)
    (hne : p1 ≠ p2) : pathOf pre p1 ≠ pathOf pre p2 := by
  intro heq
  apply hne
  apply stepsChars_inj p1 p2 (lpGood t hsafe p1 h1) (lpGood t hsafe p2 h2)
  have hd := congrArg String.data heq
  rw [pathOf_data, pathOf_data] at hd
  exact List.append_cancel_left hd

/-- C1 counterexample: in the tree `{"a.b": 1, "a": {"b": 2}}` the two
distinct leaf positions (the key `a.b`, and the key `b` inside the key `a`)
are both assigned the field path `root.a.b`, so the unconditional claim
fails. -/
theorem encoder_path_collision :
    [Step.key "a.b"] ∈ leafPositions
        (.mapping [("a.b", .integer .i 1), ("a", .mapping [("b", .integer .i 2)])]) ∧
    [Step.key "a", Step.key "b"] ∈ leafPositions
        (.mapping [("a.b", .integer .i 1), ("a", .mapping [("b", .integer .i 2)])]) ∧
    [Step.key "a.b"] ≠ [Step.key "a", Step.key "b"] ∧
    pathOf "root" [Step.key "a.b"] = pathOf "root" [Step.key "a", Step.key "b"] := by
  refine ⟨?_, ?_, ?_, ?_⟩ <;> decide

/-- Witness for `encoder_path_injective` at a concrete two-leaf tree. -/
theorem encoder_path_injective_witness :
    safeKeys (.mapping [("gold", .integer .i 100), ("name", .text "hero")]) = true ∧
    [Step.key "gold"] ∈ leafPositions
        (.mapping [("gold", .integer .i 100), ("name", .text "hero")]) ∧
    pathOf "root" [Step.key "gold"] ≠ pathOf "root" [Step.key "name"] :=
  ⟨by decide, by decide,
    encoder_path_injective
      (.mapping [("gold", .integer .i 100), ("name", .text "hero")]) "root"
      (by decide) [Step.key "gold"] [Step.key "name"]
      (by decide) (by decide) (by decide)⟩

/-! ## Mapping iteration order (C2)

Go's `for key, value := range v` over a map visits keys in an order that
the runtime deliberately randomizes between evaluations.  The list held by
a `Value.mapping` stands for one such iteration order; the same map
contents observed under another order is the `Value.mapping` of a
permutation of that list. -/
/-- C2: the encoder's output is sensitive to the mapping iteration order —
the same two-entry map visited in its two possible orders yields different
markup.  Since Go randomizes map range order across evaluations, two runs
of `renderEditableForm` on the same map need not produce the same string,
contrary to the stability the spec requires. -/
theorem mapping_order_sensitivity :
    [("a", Value.null), ("b", Value.null)].Perm
      [("b", Value.null), ("a", Value.null)] ∧
    renderEditableForm (.mapping [("a", .null), ("b", .null)]) "root" ≠
      renderEditableForm (.mapping [("b", .null), ("a", .null)]) "root" :=
  ⟨List.Perm.swap ("b", Value.null) ("a", Value.null) [], by decide⟩

theorem noPair_append (x y : Char) :
    ∀ a b : List Char, noPair x y a = true → noPair x y b = true →
      a.getLast? ≠ some x → noPair x y (a ++ b) = true
  | [], b => fun _ hb _ => by simpa using hb
  | [c], b => fun _ hb hlast => by
      cases b with
      | nil => simp [noPair]
      | cons d b' =>
          have hc : (c == x) = false := by
            cases hcx : c == x
            · rfl
            · exact absurd (show [c].getLast? = some x by
                rw [eq_of_beq hcx]; rfl) hlast
          simpa [noPair, hc] using hb
  | c1 :: c2 :: a', b => fun ha hb hlast => by
      have ha' : (!(c1 == x && c2 == y)) = true ∧ noPair x y (c2 :: a') = true := by
        simpa [noPair, Bool.and_eq_true] using ha
      have hl : (c2 :: a').getLast? ≠ some x := by
        simpa [List.getLast?_cons_cons] using hlast
      have hrec := noPair_append x y (c2 :: a') b ha'.2 hb hl
      show noPair x y (c1 :: c2 :: (a' ++ b)) = true
      simp only [noPair, Bool.and_eq_true]
      exact ⟨ha'.1, hrec⟩

theorem goodFor_append {x y : Char} {a b : List Char}
    (ha : GoodFor x y a) (hb : GoodFor x y b) : GoodFor x y (a ++ b) := by
  refine ⟨noPair_append x y a b ha.1 hb.1 ha.2, ?_⟩
  cases b with
  | nil => simpa using ha.2
  | cons d b' =>
      rw [List.getLast?_append_cons]
      exact hb.2

theorem noPair_of_not_mem (x y : Char) :
    ∀ l : List Char, x ∉ l → noPair x y l = true
  | [], _ => rfl
  | [_], _ => rfl
  | c1 :: c2 :: r, hmem => by
      have h1 : (c1 == x) = false := by
        cases h : c1 == x
        · rfl
        · exact absurd (by
            rw [← eq_of_beq h]
            exact List.mem_cons_self _ _) hmem
      have hrec := noPair_of_not_mem x y (c2 :: r)
        (fun h => hmem (List.mem_cons_of_mem _ h))
      simp [noPair, h1, hrec]

theorem getLast?_ne_of_not_mem (x : Char) :
    ∀ l : List Char, x ∉ l → l.getLast? ≠ some x
  | [], _ => by simp
  | [c], hmem => by
      simp only [List.getLast?_singleton, ne_eq, Option.some.injEq]
      intro h
      exact hmem (by simp [h])
  | c1 :: c2 :: r, hmem => by
      rw [List.getLast?_cons_cons]
      exact getLast?_ne_of_not_mem x (c2 :: r) (fun h => hmem (List.mem_cons_of_mem _ h))

theorem goodFor_of_not_mem (x y : Char) (l : List Char) (hx : x ∉ l) :
    GoodFor x y l :=
  ⟨noPair_of_not_mem x y l hx, getLast?_ne_of_not_mem x l hx⟩

theorem not_mem_escapeChar_lt (c : Char) : '<' ∉ escapeChar c := by
  unfold escapeChar
  split
  · decide
  split
  · decide
  split
  · decide
  split
  · decide
  split
  · decide
  next h1 h2 h3 h4 h5 =>
    intro hmem
    exact h3 ((List.mem_singleton.mp hmem).symm)

theorem not_mem_escapeString_lt (s : String) : '<' ∉ (escapeString s).data := by
  intro hmem
  have : '<' ∈ (s.data.map escapeChar).flatten := hmem
  simp only [List.mem_flatten, List.mem_map] at this
  obtain ⟨l, ⟨c, _, rfl⟩, hcl⟩ := this
  exact not_mem_escapeChar_lt c hcl

theorem goodFor_escapeString (y : Char) (s : String) :
    GoodFor '<' y (escapeString s).data :=
  goodFor_of_not_mem '<' y _ (not_mem_escapeString_lt s)

theorem not_mem_natRepr_lt (n : Nat) : '<' ∉ (natRepr n).data := by
  intro hmem
  have := mem_natDigits_isDigit n '<' hmem
  simp [Char.isDigit] at this

theorem goodFor_natRepr (y : Char) (n : Nat) : GoodFor '<' y (natRepr n).data :=
  goodFor_of_not_mem '<' y _ (not_mem_natRepr_lt n)

theorem not_mem_intRepr_lt (i : Int) : '<' ∉ (intRepr i).data := by
  intro hmem
  unfold intRepr at hmem
  split at hmem
  · rw [strData_append] at hmem
    rcases List.mem_append.mp hmem with h | h
    · simp at h
    · exact not_mem_natRepr_lt _ h
  · exact not_mem_natRepr_lt _ hmem

theorem goodFor_intRepr (y : Char) (i : Int) : GoodFor '<' y (intRepr i).data :=
  goodFor_of_not_mem '<' y _ (not_mem_intRepr_lt i)

theorem not_mem_of_all_not_lt (r : List Char)
    (h : r.all (fun c => !(c == '<')) = true) : '<' ∉ r := by
  intro hmem
  have := List.all_eq_true.mp h '<' hmem
  simp at this

mutual

/-- Invariant behind the escaping claim: the encoder output never contains
`<` directly followed by `s`, and never ends in `<`. -/
theorem render_good : ∀ (t : Value) (pre : String), floatSafe t = true →
    GoodFor '<' 's' (renderEditableForm t pre).data
  | .mapping kvs, pre, h => by
      simp only [renderEditableForm, strData_append]
      exact goodFor_append (goodFor_append (by decide) (renderMap_good kvs pre h))
        (by decide)
  | .sequence vs, pre, h => by
      simp only [renderEditableForm, strData_append]
      exact goodFor_append (goodFor_append (by decide) (renderSeq_good vs pre 0 h))
        (by decide)
  | .text v, pre, _ => by
      simp only [renderEditableForm, strData_append]
      exact goodFor_append
        (goodFor_append
          (goodFor_append (goodFor_append (by decide) (goodFor_escapeString _ pre))
            (by decide))
          (goodFor_escapeString _ v))
        (by decide)
  | .integer _ v, pre, _ => by
      simp only [renderEditableForm, strData_append]
      exact goodFor_append
        (goodFor_append
          (goodFor_append (goodFor_append (by decide) (goodFor_escapeString _ pre))
            (by decide))
          (goodFor_intRepr _ v))
        (by decide)
  | .float _ r, pre, h => by
      have hr : GoodFor '<' 's' r.data :=
        goodFor_of_not_mem _ _ _ (not_mem_of_all_not_lt r.data h)
      simp only [renderEditableForm, strData_append]
      exact goodFor_append
        (goodFor_append
          (goodFor_append (goodFor_append (by decide) (goodFor_escapeString _ pre))
            (by decide))
          hr)
        (by decide)
  | .boolean b, pre, _ => by
      simp only [renderEditableForm, strData_append]
      exact goodFor_append
        (goodFor_append
          (goodFor_append
            (goodFor_append
              (goodFor_append (goodFor_append (by decide) (goodFor_escapeString _ pre))
                (by decide))
              (goodFor_escapeString _ pre))
            (by decide))
          (by cases b <;> decide))
        (by decide)
  | .null, pre, _ => by
      simp only [renderEditableForm]
      decide
  | .uinteger _ n, pre, _ => by
      simp only [renderEditableForm, strData_append]
      exact goodFor_append (goodFor_append (by decide) (goodFor_escapeString _ _))
        (by decide)
  | .opaq r, pre, _ => by
      simp only [renderEditableForm, strData_append]
      exact goodFor_append (goodFor_append (by decide) (goodFor_escapeString _ r))
        (by decide)

/-- `render_good` over the entries of a mapping node. -/
theorem renderMap_good : ∀ (kvs : List (String × Value)) (pre : String),
    floatSafeMap kvs = true → GoodFor '<' 's' (renderMapItems kvs pre).data
  | [], pre, _ => by
      simp only [renderMapItems]
      decide
  | (k, v) :: rest, pre, h => by
      have h' : floatSafe v = true ∧ floatSafeMap rest = true := by
        simpa [floatSafeMap, Bool.and_eq_true] using h
      simp only [renderMapItems, strData_append]
      exact goodFor_append
        (goodFor_append
          (goodFor_append
            (goodFor_append (goodFor_append (by decide) (goodFor_escapeString _ k))
              (by decide))
            (render_good v _ h'.1))
          (by decide))
        (renderMap_good rest pre h'.2)

/-- `render_good` over the elements of a sequence node. -/
theorem renderSeq_good : ∀ (vs : List Value) (pre : String) (i : Nat),
    floatSafeSeq vs = true → GoodFor '<' 's' (renderSeqItems vs pre i).data
  | [], pre, _, _ => by
      simp only [renderSeqItems]
      decide
  | v :: rest, pre, i, h => by
      have h' : floatSafe v = true ∧ floatSafeSeq rest = true := by
        simpa [floatSafeSeq, Bool.and_eq_true] using h
      simp only [renderSeqItems, strData_append]
      exact goodFor_append
        (goodFor_append (goodFor_append (by decide) (render_good v _ h'.1))
          (by decide))
        (renderSeq_good rest pre (i + 1) h'.2)

end

theorem noPair_cons_pair (x y : Char) :
    ∀ u z : List Char, noPair x y (u ++ x :: y :: z) = false
  | [], z => by simp [noPair]
  | [c], z => by
      have := noPair_cons_pair x y [] z
      simp only [List.nil_append] at this
      simp [noPair, this]
  | c :: d :: u, z => by
      have := noPair_cons_pair x y (d :: u) z
      simp only [List.cons_append] at this ⊢
      simp [noPair, this]

theorem not_sub_of_noPair (x y : Char) (r l : List Char)
    (h : noPair x y l = true) : ¬ ((x :: y :: r) <:+: l) := by
  rintro ⟨u, w, rfl⟩
  rw [show u ++ (x :: y :: r) ++ w = u ++ x :: y :: (r ++ w) by simp] at h
  rw [noPair_cons_pair x y u (r ++ w)] at h
  exact Bool.noConfusion h

/-- C3: for every value tree whose float renderings contain no `<` (as
Go's `%v` float output always does) and every path string, the encoder
output never contains the literal substring `<script>` — every
user-controlled fragment (text values, key labels, field-name attributes,
fallback display strings) passes through `escapeString` before being
emitted. -/
theorem renderEditableForm_no_script (t : Value) (pre : String)
    (h : floatSafe t = true) :
    ¬ ("<script>".data <:+: (renderEditableForm t pre).data) := by
  have hg := render_good t pre h
  have hs : "<script>".data = '<' :: 's' :: "cript>".data := rfl
  rw [hs]
  exact not_sub_of_noPair '<' 's' _ _ hg.1

/-- Witness for `renderEditableForm_no_script` at a text leaf that
contains a script tag. -/
theorem renderEditableForm_no_script_witness :
    floatSafe (.text "<script>alert(1)</script>") = true ∧
    ¬ ("<script>".data <:+:
        (renderEditableForm (.text "<script>alert(1)</script>") "root").data) :=
  ⟨by decide, renderEditableForm_no_script (.text "<script>alert(1)</script>") "root"
    (by decide)⟩

theorem strExt {s t : String} (h : s.data = t.data) : s = t := by
  cases s
  cases t
  exact congrArg String.mk h

/-- C4: for every Boolean value and path, the encoder emits exactly the
spec's Boolean control: a hidden field with value `false` plus a checkbox
field with value `true`, both named by the (escaped) leaf path, the
checkbox checked exactly when the value is true. -/
theorem renderBoolean_spec (b : Bool) (pre : String) :
    renderEditableForm (.boolean b) pre = specBooleanControl (escapeString pre) b := by
  apply strExt
  simp only [renderEditableForm, specBooleanControl, strData_append, List.append_assoc,
    List.cons_append, List.nil_append]

theorem renderSeqItems_enum (vs : List Value) (pre : String) :
    ∀ i, renderSeqItems vs pre i =
      strConcat ((enumF i vs).map fun iv =>
        "<li>" ++ renderEditableForm iv.2 (pre ++ "[" ++ natRepr iv.1 ++ "]") ++ "</li>") := by
  induction vs with
  | nil => intro i; rfl
  | cons v rest ih =>
      intro i
      simp only [renderSeqItems, enumF, List.map_cons, strConcat]
      rw [ih (i + 1)]

/-- C5: a sequence is encoded by visiting its elements in index order
0, 1, 2, …, emitting one `<li>` item per element in that order, the
element at index `i` encoded under the child path `pre[i]`. -/
theorem renderSequence_order (vs : List Value) (pre : String) :
    renderEditableForm (.sequence vs) pre =
      "<ol>" ++ strConcat ((enumF 0 vs).map fun iv =>
        "<li>" ++ renderEditableForm iv.2 (pre ++ "[" ++ natRepr iv.1 ++ "]") ++ "</li>")
        ++ "</ol>" := by
  simp only [renderEditableForm]
  rw [renderSeqItems_enum vs pre 0]

/-! ## Totality and the fallback case (C6, C9) -/
/-- C6: the encoder is a total function on the whole value variant — it is
defined (and terminating, being a total Lean function) on every tree and
every path string — and every runtime shape outside the matched cases
(embedded as `uinteger` and `opaq`) is rendered by the escaped,
non-interactive fallback `<code>…</code>` rather than failing. -/
theorem renderEditableForm_total (t : Value) (pre : String) :
    (∃ out : String, renderEditableForm t pre = out) ∧
    (∀ r, renderEditableForm (.opaq r) pre = "<code>" ++ escapeString r ++ "</code>") ∧
    (∀ ty n, renderEditableForm (.uinteger ty n) pre
      = "<code>" ++ escapeString (natRepr n) ++ "</code>") :=
  ⟨⟨renderEditableForm t pre, rfl⟩, fun _ => rfl, fun _ _ => rfl⟩

/-- C9: unsigned integer values are not matched by the encoder's signed
integer case: they are rendered exactly like an Opaque value carrying
their decimal display — an escaped `<code>` block — and the result
contains no `<input` at all, so the leaf is not editable and not
submittable. -/
theorem uinteger_not_matched (ty : UnsignedTy) (n : Nat) (pre : String) :
    renderEditableForm (.uinteger ty n) pre =
      renderEditableForm (.opaq (natRepr n)) pre ∧
    ¬ ("<input".data <:+: (renderEditableForm (.uinteger ty n) pre).data) := by
  constructor
  · rfl
  · have hg : GoodFor '<' 'i' (renderEditableForm (.uinteger ty n) pre).data := by
      simp only [renderEditableForm, strData_append]
      exact goodFor_append
        (goodFor_append (by decide) (goodFor_escapeString _ _)) (by decide)
    have hi : "<input".data = '<' :: 'i' :: "nput".data := rfl
    rw [hi]
    exact not_sub_of_noPair '<' 'i' _ _ hg.1

/-- C7 (amended): a request to `/upload` whose method is not POST is
answered with status 405 (Method Not Allowed, not the claimed 400), and
the handler does not read the uploaded file. -/
theorem uploadHandler_wrong_method (zipParse : List Nat → Option (List ZipEntry))
    (unpickle : List Nat → Option Value) (r : Request) (h : r.method ≠ "POST") :
    (uploadHandler zipParse unpickle r).resp.status = 405 ∧
    (uploadHandler zipParse unpickle r).fileRead = false := by
  unfold uploadHandler
  rw [if_pos h]
  exact ⟨rfl, rfl⟩

/-- C7 counterexample: a GET request to `/upload` is answered with 405,
not with the claimed status 400. -/
theorem uploadHandler_wrong_method_not_400 :
    (uploadHandler (fun _ => none) (fun _ => none)
      ⟨"GET", "/upload", some (some []), none⟩).resp.status ≠ 400 := by decide

/-- Witness for `uploadHandler_wrong_method` at a concrete GET request. -/
theorem uploadHandler_wrong_method_witness :
    (("GET" : String) ≠ "POST") ∧
    (uploadHandler (fun _ => none) (fun _ => none)
        ⟨"GET", "/upload", some (some []), none⟩).resp.status = 405 ∧
    (uploadHandler (fun _ => none) (fun _ => none)
        ⟨"GET", "/upload", some (some []), none⟩).fileRead = false :=
  ⟨by decide,
    (uploadHandler_wrong_method (fun _ => none) (fun _ => none)
      ⟨"GET", "/upload", some (some []), none⟩ (by decide)).1,
    (uploadHandler_wrong_method (fun _ => none) (fun _ => none)
      ⟨"GET", "/upload", some (some []), none⟩ (by decide)).2⟩

/-- C8: `/save` answers 405 on a non-POST method and 500 on a form-parse
failure; otherwise it answers 200 with the plain-text placeholder
acknowledgment after logging the submitted fields with their keys sorted
in lexicographic order (a sorted permutation of the submitted keys). -/
theorem saveHandler_spec (r : Request) :
    (r.method ≠ "POST" → (saveHandler r).status = 405) ∧
    (r.method = "POST" → r.postForm = none → (saveHandler r).status = 500) ∧
    (∀ form, r.method = "POST" → r.postForm = some form →
      (saveHandler r).status = 200 ∧
      (saveHandler r).body =
        "Changes received. Rebuilding the save file is the next step." ∧
      List.Sorted (· ≤ ·) ((saveHandler r).logged.map Prod.fst) ∧
      ((saveHandler r).logged.map Prod.fst).Perm (form.map Prod.fst)) := by
  refine ⟨?_, ?_, ?_⟩
  · intro h
    unfold saveHandler
    rw [if_pos h]
  · intro hm hf
    unfold saveHandler
    rw [if_neg (fun hc => hc hm), hf]
  · intro form hm hf
    unfold saveHandler
    rw [if_neg (fun hc => hc hm), hf]
    refine ⟨rfl, rfl, ?_, ?_⟩
    · have hmap :
          ((List.insertionSort (· ≤ ·) (form.map Prod.fst)).map
              (fun k => (k, lookupForm form k))).map Prod.fst =
            List.insertionSort (· ≤ ·) (form.map Prod.fst) := by
        rw [List.map_map]
        have hcomp : (Prod.fst ∘ fun k => (k, lookupForm form k)) = id := rfl
        rw [hcomp, List.map_id]
      show List.Sorted (· ≤ ·)
        (((List.insertionSort (· ≤ ·) (form.map Prod.fst)).map
          (fun k => (k, lookupForm form k))).map Prod.fst)
      rw [hmap]
      exact List.sorted_insertionSort _ _
    · show (((List.insertionSort (· ≤ ·) (form.map Prod.fst)).map
          (fun k => (k, lookupForm form k))).map Prod.fst).Perm (form.map Prod.fst)
      have hmap :
          ((List.insertionSort (· ≤ ·) (form.map Prod.fst)).map
              (fun k => (k, lookupForm form k))).map Prod.fst =
            List.insertionSort (· ≤ ·) (form.map Prod.fst) := by
        rw [List.map_map]
        have hcomp : (Prod.fst ∘ fun k => (k, lookupForm form k)) = id := rfl
        rw [hcomp, List.map_id]
      rw [hmap]
      exact List.perm_insertionSort _ _

/-- Witness for `saveHandler_spec` at three concrete requests, one per
branch. -/
theorem saveHandler_spec_witness :
    (("GET" : String) ≠ "POST") ∧
    (saveHandler ⟨"GET", "/save", none, some []⟩).status = 405 ∧
    (saveHandler ⟨"POST", "/save", none, none⟩).status = 500 ∧
    (saveHandler ⟨"POST", "/save", none,
        some [("b", ["2"]), ("a", ["1"])]⟩).status = 200 ∧
    List.Sorted (· ≤ ·) ((saveHandler ⟨"POST", "/save", none,
        some [("b", ["2"]), ("a", ["1"])]⟩).logged.map Prod.fst) :=
  ⟨by decide,
    (saveHandler_spec ⟨"GET", "/save", none, some []⟩).1 (by decide),
    (saveHandler_spec ⟨"POST", "/save", none, none⟩).2.1 rfl rfl,
    ((saveHandler_spec ⟨"POST", "/save", none,
        some [("b", ["2"]), ("a", ["1"])]⟩).2.2 _ rfl rfl).1,
    ((saveHandler_spec ⟨"POST", "/save", none,
        some [("b", ["2"]), ("a", ["1"])]⟩).2.2 _ rfl rfl).2.2.1⟩

set_option maxRecDepth 16384 in
/-- C10: the pattern `/` catches every path other than `/upload` and
`/save`, and its handler never consults the method: for any method and
any other path the server answers 200 with the upload-form page, which
posts a multipart form with file field `savefile` to `/upload`. -/
theorem serve_root_catchall (zipParse : List Nat → Option (List ZipEntry))
    (unpickle : List Nat → Option Value) (m p : String)
    (sf : Option (Option (List Nat))) (pf : Option (List (String × List String)))
    (h1 : p ≠ "/upload") (h2 : p ≠ "/save") :
    serve zipParse unpickle ⟨m, p, sf, pf⟩ = ⟨200, rootPage⟩ ∧
    ("name=\"savefile\"".data <:+: rootPage.data) ∧
    ("enctype=\"multipart/form-data\"".data <:+: rootPage.data) ∧
    ("action=\"/upload\"".data <:+: rootPage.data) := by
  refine ⟨?_, by decide, by decide, by decide⟩
  unfold serve
  rw [if_neg h1, if_neg h2]

/-- Witness for `serve_root_catchall`: a POST to an unregistered path. -/
theorem serve_root_catchall_witness :
    (("/whatever" : String) ≠ "/upload") ∧ (("/whatever" : String) ≠ "/save") ∧
    serve (fun _ => none) (fun _ => none) ⟨"POST", "/whatever", none, none⟩
      = ⟨200, rootPage⟩ :=
  ⟨by decide, by decide,
    (serve_root_catchall (fun _ => none) (fun _ => none) "POST" "/whatever"
      none none (by decide) (by decide)).1⟩

example : natRepr 0 = "0" := rfl

example : natRepr 120 = "120" := rfl

example : intRepr (-45) = "-45" := rfl

example : escapeString "<b>" = "&lt;b&gt;" := by decide

example :
    renderEditableForm (.integer .i 7) "root" =
      "<input type=\"number\" name=\"root\" value=\"7\">" := by decide

example :
    renderEditableForm (.sequence [.null, .null]) "r" =
      "<ol><li><em>nil</em></li><li><em>nil</em></li></ol>" := by decide

example :
    renderEditableForm (.mapping [("k", .text "v")]) "r" =
      "<ul><li><label>k:</label> <input type=\"text\" name=\"r.k\" value=\"v\" size=\"100\"></li></ul>" := by
  decide
